import Mathlib

/-!
Shallow embedding of the alignment-matching engine of the EO_Validation QGIS
plugin, together with the record-loading helpers it relies on.

Sources embedded here:
* `alignment_analyzer.py` — `AlignmentAnalyzer._extract_base_filename`,
  `AlignmentAnalyzer.calculate_distances` (key-dictionary construction, the
  time-sorted cyclic shift of the EO associations, and the per-key residual
  computation), `AlignmentAnalyzer.get_alignment_stats`.
* `plot_eo.py` — `EOPlotter.read_eo_file` (header auto-detection and row
  parsing) and `EOPlotter.plot_eo_files` (per-file best-effort accumulation).
* `image_finder.py` — the per-image accumulation loop of
  `ImageFinder.process_images`.

Modelling conventions:
* Python strings are modelled as `List Char`; `str.strip`, `str.replace` and
  `str.lower` are reimplemented below with Python's semantics.
* Python floats are modelled as exact rationals `ℚ` (every IEEE double is a
  rational; IEEE rounding is abstracted away), and `math.sqrt` as `Real.sqrt`
  on the cast to `ℝ`.  `float('inf')` is modelled as `⊤` in `WithTop ℝ`.
* Python dicts (insertion ordered, last-write-wins, updates keep the original
  position of a key) are modelled as association lists with unique keys.
* Python's stable `sorted` is modelled by a stable insertion sort
  (`sortByTime` below); `%` on integers with a positive modulus agrees with
  Lean's `Int.emod`, which is used directly.
-/

namespace EOVal

/-- Program strings (Python `str`) are modelled as lists of characters. -/
abbrev Str := List Char

/-- The whitespace characters recognised by Python's `str.strip()`. -/
def isPySpace (c : Char) : Bool :=
  c = ' ' || c = '\t' || c = '\n' || c = '\r' || c = '\x0b' || c = '\x0c'

/-- Python `s.strip()`: remove leading and trailing whitespace. -/
def pyStrip (s : Str) : Str :=
  ((s.dropWhile isPySpace).reverse.dropWhile isPySpace).reverse

/-- Worker for `replaceAll`.  While `skip > 0` we are inside an occurrence
that has already been matched and simply drop characters; at `skip = 0` we
test for a fresh occurrence of `pat` (Python `str.replace` scans left to
right and never rescans inside a replaced occurrence). -/
def replaceAllAux (pat : Str) : Nat → Str → Str
  | _ + 1, [] => []
  | skip + 1, _ :: rest => replaceAllAux pat skip rest
  | 0, [] => []
  | 0, c :: rest =>
    if pat.isPrefixOf (c :: rest) && !pat.isEmpty then
      replaceAllAux pat (pat.length - 1) rest
    else c :: replaceAllAux pat 0 rest

/-- Python `s.replace(pat, '')`: remove every non-overlapping occurrence of
`pat` from `s`, scanning left to right. -/
def replaceAll (pat s : Str) : Str := replaceAllAux pat 0 s

/-- Decidable "`pat` occurs somewhere in `s`" (Python `pat in s`). -/
def containsSub (pat : Str) : Str → Bool
  | [] => pat.isPrefixOf []
  | c :: rest => pat.isPrefixOf (c :: rest) || containsSub pat rest

/-- Embeds `AlignmentAnalyzer._extract_base_filename`:
`filename.replace('_1.tif', '')` followed by `.strip()`. -/
def extract_base_filename (filename : Str) : Str :=
  pyStrip (replaceAll ("_1.tif".toList) filename)

/-- An image feature as `calculate_distances` reads it from the image layer:
the `filename` attribute, the point geometry (`x`, `y`), the `altitude`
attribute and the `timestamp` attribute. -/
structure ImageFeature where
  filename : Str
  x : ℚ
  y : ℚ
  altitude : ℚ
  timestamp : ℚ
deriving DecidableEq

/-- An EO feature as `calculate_distances` reads it from the EO layer:
the `photo_id` attribute, the point geometry (`x`, `y`), the
`ellipsoid_height` attribute and the `event_time` attribute (the sort key;
modelled as an ordered rational instant). -/
structure EOFeature where
  photo_id : Str
  x : ℚ
  y : ℚ
  ellipsoid_height : ℚ
  event_time : ℚ
deriving DecidableEq

/-- Python dict assignment `m[k] = v`: if `k` is present its value is
updated in place (the key keeps its original position), otherwise the new
binding is appended at the end. -/
def dictInsert (m : List (Str × α)) (k : Str) (v : α) : List (Str × α) :=
  if k ∈ m.map Prod.fst then
    m.map (fun p => if p.1 = k then (k, v) else p)
  else m ++ [(k, v)]

/-- Python dict lookup `m[k]` / `k in m`: the value bound to `k`, if any. -/
def dictLookup (m : List (Str × α)) (k : Str) : Option α :=
  match m with
  | [] => none
  | p :: rest => if p.1 = k then some p.2 else dictLookup rest k

/-- The key list of a dict, in insertion order. -/
def dictKeys (m : List (Str × α)) : List Str := m.map Prod.fst

/-- Embeds a Python dict comprehension `{key(f): f for f in l}`:
insertion ordered, last write wins on duplicate keys. -/
def buildDict (key : α → Str) (l : List α) : List (Str × α) :=
  l.foldl (fun m f => dictInsert m (key f) f) []

/-- The image-layer dict of `calculate_distances`:
`{_extract_base_filename(f['filename']): f for f in image_features}`. -/
def imageDict (img : List ImageFeature) : List (Str × ImageFeature) :=
  buildDict (fun f => extract_base_filename f.filename) img

/-- The EO-layer dict of `calculate_distances`:
`{_extract_base_filename(f['photo_id']): f for f in eo_features}`. -/
def eoDict (eo : List EOFeature) : List (Str × EOFeature) :=
  buildDict (fun f => extract_base_filename f.photo_id) eo

/-- One step of a stable insertion sort on `event_time`: `x` is inserted
after every already-placed element whose `event_time` is `≤` its own, so
elements that compare equal keep their original relative order — exactly the
guarantee of Python's stable `sorted`. -/
def insertByTime (x : Str × EOFeature) :
    List (Str × EOFeature) → List (Str × EOFeature)
  | [] => [x]
  | y :: ys =>
    if y.2.event_time ≤ x.2.event_time then y :: insertByTime x ys
    else x :: y :: ys

/-- Embeds `sorted(eo_dict.items(), key=lambda x: x[1]['event_time'])`:
a stable sort of the dict items by event time, ascending. -/
def sortByTime (l : List (Str × EOFeature)) : List (Str × EOFeature) :=
  l.foldl (fun acc x => insertByTime x acc) []

/-- Default feature used only to give `List.getD` a total type; every index
used below is in range, mirroring that the Python list indexing
`eo_items[(i + shift) % len(eo_items)]` never raises. -/
def dfltEO : EOFeature :=
  { photo_id := [], x := 0, y := 0, ellipsoid_height := 0, event_time := 0 }

/-- Default dict entry companion of `dfltEO`. -/
def dfltPair : Str × EOFeature := ([], dfltEO)

/-- Embeds the shift loop of `calculate_distances`:
`for i, (key, feature) in enumerate(eo_items): shifted_eo[key] =
eo_items[(i + shift) % len(eo_items)][1]`.  The items of a dict have
pairwise-distinct keys, so each dict assignment appends a fresh binding and
the built dict is exactly this list. -/
def shiftedEO (items : List (Str × EOFeature)) (shift : ℤ) :
    List (Str × EOFeature) :=
  (List.range items.length).map (fun i =>
    ((items.getD i dfltPair).1,
     (items.getD ((((i : ℤ) + shift) % (items.length : ℤ)).toNat) dfltPair).2))

/-- The shifting step of `calculate_distances` (spec name `apply_shift`):
build the EO key dict, and when `shift ≠ 0` rebuild it by cyclically
rotating the records against the time-sorted key order.  At `shift = 0` the
code short-circuits and keeps `eo_dict` unchanged. -/
def apply_shift (eo : List EOFeature) (shift : ℤ) : List (Str × EOFeature) :=
  if shift = 0 then eoDict eo else shiftedEO (sortByTime (eoDict eo)) shift

/-- One row of the result list of `calculate_distances`. -/
structure MatchResult where
  image_id : Str
  distance_3d : ℝ
  distance_2d : ℝ
  dx : ℚ
  dy : ℚ
  dz : ℚ
  image_time : ℚ
  eo_time : ℚ

/-- The body of the matching loop of `calculate_distances` for one
intersecting key: `dx`, `dy`, `dz` are coordinate differences and the
distances are `math.sqrt(dx*dx + dy*dy (+ dz*dz))`. -/
noncomputable def mkMatch (k : Str) (imf : ImageFeature) (eof : EOFeature) :
    MatchResult :=
  let dx := imf.x - eof.x
  let dy := imf.y - eof.y
  let dz := imf.altitude - eof.ellipsoid_height
  { image_id := k
    distance_3d := Real.sqrt (((dx * dx + dy * dy + dz * dz : ℚ) : ℝ))
    distance_2d := Real.sqrt (((dx * dx + dy * dy : ℚ) : ℝ))
    dx := dx
    dy := dy
    dz := dz
    image_time := imf.timestamp
    eo_time := eof.event_time }

/-- The matching loop of `calculate_distances` (spec name `score`): iterate
over `image_dict` in insertion order and emit one `MatchResult` for every
key also present in `eo_dict`.  Pure: it only reads its arguments. -/
noncomputable def score (imgd : List (Str × ImageFeature))
    (eod : List (Str × EOFeature)) : List MatchResult :=
  imgd.filterMap (fun p => (dictLookup eod p.1).map (fun eof => mkMatch p.1 p.2 eof))

/-- Embeds `AlignmentAnalyzer.calculate_distances(shift)` for fixed layer
contents `img` and `eo`. -/
noncomputable def calculate_distances (img : List ImageFeature)
    (eo : List EOFeature) (shift : ℤ) : List MatchResult :=
  score (imageDict img) (apply_shift eo shift)

/-- The statistics dictionary returned by `get_alignment_stats`; the three
distance fields live in `WithTop ℝ`, with `⊤` modelling `float('inf')`. -/
structure AlignmentStats where
  avg_3d : WithTop ℝ
  avg_2d : WithTop ℝ
  max_3d : WithTop ℝ
  match_count : ℕ

/-- The aggregation step of `get_alignment_stats`: infinite distances and
zero matches for an empty result list, otherwise `sum(...)/len(...)` for the
averages and Python `max(...)` (a left fold of `max` over the tail starting
from the head) for the maximum. -/
noncomputable def aggregate : List MatchResult → AlignmentStats
  | [] => { avg_3d := ⊤, avg_2d := ⊤, max_3d := ⊤, match_count := 0 }
  | d :: rest =>
    { avg_3d := ((((d :: rest).map MatchResult.distance_3d).sum /
        (((d :: rest).length : ℝ)) : ℝ))
      avg_2d := ((((d :: rest).map MatchResult.distance_2d).sum /
        (((d :: rest).length : ℝ)) : ℝ))
      max_3d := (((rest.map MatchResult.distance_3d).foldl max d.distance_3d : ℝ))
      match_count := (d :: rest).length }

/-- Embeds `AlignmentAnalyzer.get_alignment_stats(shift)`. -/
noncomputable def get_alignment_stats (img : List ImageFeature)
    (eo : List EOFeature) (shift : ℤ) : AlignmentStats :=
  aggregate (calculate_distances img eo shift)

/-- The inclusive integer range `[lo, hi]` of candidate shifts. -/
def shiftRange (lo hi : ℤ) : List ℤ :=
  (List.range (hi + 1 - lo).toNat).map (fun (i : ℕ) => lo + (i : ℤ))

/-- The selection order of the full search: a candidate beats the incumbent
when its `avg_3d` is strictly smaller, with ties broken by the smaller
absolute shift magnitude and then by the smaller shift value. -/
def betterThan (c b : ℤ × AlignmentStats) : Prop :=
  c.2.avg_3d < b.2.avg_3d ∨
    (c.2.avg_3d = b.2.avg_3d ∧ (|c.1| < |b.1| ∨ (|c.1| = |b.1| ∧ c.1 < b.1)))

open Classical in
/-- Fold the candidate list keeping the best element under `betterThan`. -/
noncomputable def pickBest :
    List (ℤ × AlignmentStats) → Option (ℤ × AlignmentStats)
  | [] => none
  | c :: rest => some (rest.foldl (fun b c' => if betterThan c' b then c' else b) c)

/-- Modelled from the spec: the repository implements only the interactive
single-shift entry point (`get_alignment_stats` behind a spin box); the full
search `best_shift` of spec §4.4 is not implemented in any source file.
Following the spec's words: every integer shift in `[lo, hi]` inclusive is
scored through the shift-then-score pipeline; if every candidate yields zero
matches the search reports the failure (`none`, the NoAlignmentFound
condition), otherwise it returns the shift minimising `avg_3d`, ties broken
by the smallest `|shift|` and then the smallest shift. -/
noncomputable def best_shift (img : List ImageFeature) (eo : List EOFeature)
    (lo hi : ℤ) : Option (ℤ × AlignmentStats) :=
  let cands := (shiftRange lo hi).map (fun s => (s, get_alignment_stats img eo s))
  if cands.all (fun c => c.2.match_count == 0) then none else pickBest cands

/-- One parsed row of an EO text file, as `EOPlotter.read_eo_file` builds it:
`{'filename': row[0], 'x': float(row[1]), 'y': float(row[2]),
'z': float(row[3]), 'timestamp': row[-1].strip()}`. -/
structure EORow where
  filename : Str
  x : ℚ
  y : ℚ
  z : ℚ
  timestamp : Str
deriving DecidableEq

/-- Numeric value of an ASCII digit, if the character is one. -/
def digitVal (c : Char) : Option ℕ :=
  if c.isDigit then some (c.toNat - '0'.toNat) else none

/-- Fold a digit string into a natural number; `none` on a non-digit.
The empty list gives `some 0`; callers guard against emptiness. -/
def parseDigits (l : Str) : Option ℕ :=
  l.foldl (fun acc c =>
    match acc, digitVal c with
    | some a, some d => some (a * 10 + d)
    | _, _ => none) (some 0)

/-- Unsigned part of Python `float(s)` on the plain decimal forms occurring
in EO files: digits with an optional decimal point (`"12"`, `"12."`,
`".5"`, `"12.5"`); anything else fails. -/
def parseUnsigned (t : Str) : Option ℚ :=
  match t.span (fun c => decide (c ≠ '.')) with
  | (intPart, []) =>
    if intPart.isEmpty then none
    else (parseDigits intPart).map (fun n => (n : ℚ))
  | (intPart, _ :: frac) =>
    if frac.any (fun c => decide (c = '.')) then none
    else if intPart.isEmpty && frac.isEmpty then none
    else
      match parseDigits intPart, parseDigits frac with
      | some a, some b => some ((a : ℚ) + (b : ℚ) / (10 : ℚ) ^ frac.length)
      | _, _ => none

/-- Python `float(s)` (on the decimal forms above): strip surrounding
whitespace, read an optional sign, then the unsigned decimal. -/
def parseFloat (s : Str) : Option ℚ :=
  match pyStrip s with
  | '-' :: rest => (parseUnsigned rest).map Neg.neg
  | '+' :: rest => parseUnsigned rest
  | t => parseUnsigned t

/-- The row-parsing body of `read_eo_file`'s loop: `row[0]` is the filename,
`float(row[1..3])` the coordinates, `row[-1].strip()` the timestamp.  A
missing field (Python `IndexError`) or a malformed number (Python
`ValueError` from `float`) makes the record fail. -/
def parseRow (row : List Str) : Option EORow :=
  match row.getD 0 [], row.get? 1, row.get? 2, row.get? 3, row.getLast? with
  | f, some xs, some ys, some zs, some ts =>
    match parseFloat xs, parseFloat ys, parseFloat zs with
    | some x, some y, some z =>
      some { filename := f, x := x, y := y, z := z, timestamp := pyStrip ts }
    | _, _, _ => none
  | _, _, _, _, _ => none

/-- The header tokens of `read_eo_file`'s auto-detection. -/
def headerTokens : List Str := ["filename".toList, "name".toList, "image".toList]

/-- Python `s.lower()` (ASCII). -/
def strToLower (s : Str) : Str := s.map Char.toLower

/-- The header auto-detection of `read_eo_file`:
`any(field.lower() in {'filename', 'name', 'image'} for field in
first_line.split(','))` — note it inspects every field of the first row,
not only the first one.  An empty file yields no header. -/
def hasHeader (rows : List (List Str)) : Bool :=
  match rows with
  | [] => false
  | first :: _ => first.any (fun f => decide (strToLower f ∈ headerTokens))

/-- Embeds `EOPlotter.read_eo_file` on an already-split file (a list of
rows, each a list of fields): skip the first row when a header is detected,
then parse every remaining row.  The whole loop runs inside one `try`, so a
single failing row aborts the file with `ValueError` (`none` here),
discarding even its previously parsed rows. -/
def read_eo_file (rows : List (List Str)) : Option (List EORow) :=
  let body := if hasHeader rows then rows.tail else rows
  body.mapM parseRow

/-- Embeds the accumulation loop of `EOPlotter.plot_eo_files`: each file is
read under its own `try/except ValueError`; a failing file is logged and
skipped, the records of every successfully read file are appended.  (The
`source_file` tagging and the vector-layer construction are rendering
plumbing outside the data path and are not modelled.) -/
def plot_eo_files (files : List (List (List Str))) : List EORow :=
  files.foldl (fun acc f =>
    match read_eo_file f with
    | some rs => acc ++ rs
    | none => acc) []

/-- The image record `ImageFinder` extracts per image file. -/
structure ImageData where
  file_path : Str
  filename : Str
  latitude : ℚ
  longitude : ℚ
  altitude : ℚ
  timestamp : Str
  capture_id : Str
deriving DecidableEq

/-- The observable outcome of `Image.open` plus the tag reads inside
`process_images`' loop body for one candidate file: the `make` and `model`
tags (tag 271/272, `none` when absent) and the result of
`_extract_image_data` (`none` models both a raised exception and a missing
GPS block — the function returns `None` or the `except` clause catches). -/
structure OpenedImage where
  make : Option Str
  model : Option Str
  extracted : Option ImageData
deriving DecidableEq

/-- The body of `process_images`' per-file loop: a file whose `Image.open`
raised (`none`) is caught, logged and skipped; otherwise the MicaSense
Altum make/model check gates the extraction, whose failure also only skips
this record. -/
def processOne (o : Option OpenedImage) : Option ImageData :=
  match o with
  | none => none
  | some img =>
    match img.make, img.model with
    | some mk, some md =>
      if mk = "MicaSense".toList ∧ md = "Altum".toList then img.extracted
      else none
    | _, _ => none

/-- Embeds the accumulation of `ImageFinder.process_images` over the
candidate image files: per-record best effort, one `try/except` per file. -/
def process_images (files : List (Option OpenedImage)) : List ImageData :=
  files.filterMap processOne

/-! Concrete inputs used by the witnesses and counterexamples below. -/

/-- Witness image feature: filename `"b"`, position `(0, 0)`, altitude `0`. -/
def wImg : ImageFeature :=
  { filename := "b".toList, x := 0, y := 0, altitude := 0, timestamp := 0 }

/-- Witness EO feature `"a"` at the origin, event time `1`. -/
def wEOA : EOFeature :=
  { photo_id := "a".toList, x := 0, y := 0, ellipsoid_height := 0, event_time := 1 }

/-- Witness EO feature `"b"` at `(1, 0)`, event time `2`. -/
def wEOB : EOFeature :=
  { photo_id := "b".toList, x := 1, y := 0, ellipsoid_height := 0, event_time := 2 }

/-- Counterexample EO sequence with three distinct keys `"a"`, `"b"`, `"c"`
at strictly increasing event times and pairwise different positions. -/
def cEOs : List EOFeature :=
  [ { photo_id := "a".toList, x := 10, y := 0, ellipsoid_height := 0, event_time := 1 }
  , { photo_id := "b".toList, x := 20, y := 0, ellipsoid_height := 0, event_time := 2 }
  , { photo_id := "c".toList, x := 30, y := 0, ellipsoid_height := 0, event_time := 3 } ]

/-- Counterexample EO sequence with a duplicated key: records `"a"`, `"b"`,
`"a"` at event times `1`, `2`, `3`; the dict collapses the two `"a"`
records (last write wins), so only two distinct keys remain. -/
def dEOs : List EOFeature :=
  [ { photo_id := "a".toList, x := 10, y := 0, ellipsoid_height := 0, event_time := 1 }
  , { photo_id := "b".toList, x := 20, y := 0, ellipsoid_height := 0, event_time := 2 }
  , { photo_id := "a".toList, x := 30, y := 0, ellipsoid_height := 0, event_time := 3 } ]

/-- A well-formed EO file row: `a 1 2 3 t`. -/
def goodRow : List Str := ["a".toList, "1".toList, "2".toList, "3".toList, "t".toList]

/-- A malformed EO file row: a single field, so `row[1]` raises
`IndexError` inside the parsing loop. -/
def badRow : List Str := ["b".toList]

/-- An EO file whose first row carries the token `image` in its last field
while its first field is the non-token `5`. -/
def tokenRows : List (List Str) :=
  [["5".toList, "1".toList, "2".toList, "3".toList, "image".toList]]

/-! ### Dictionary lemmas -/

theorem dictKeys_dictInsert (m : List (Str × α)) (k : Str) (v : α) :
    dictKeys (dictInsert m k v) =
      if k ∈ dictKeys m then dictKeys m else dictKeys m ++ [k] := by
  unfold dictInsert dictKeys
  by_cases h : k ∈ m.map Prod.fst
  · rw [if_pos h, if_pos h, List.map_map]
    refine List.map_congr_left ?_
    intro p _
    by_cases hp : p.1 = k
    · simp [hp]
    · simp [hp]
  · rw [if_neg h, if_neg h]
    simp

theorem mem_dictKeys_dictInsert (m : List (Str × α)) (k k' : Str) (v : α) :
    k' ∈ dictKeys (dictInsert m k v) ↔ k' ∈ dictKeys m ∨ k' = k := by
  rw [dictKeys_dictInsert]
  by_cases hm : k ∈ dictKeys m
  · rw [if_pos hm]
    constructor
    · exact Or.inl
    · rintro (h | rfl)
      · exact h
      · exact hm
  · rw [if_neg hm]; simp

theorem nodup_dictKeys_dictInsert (m : List (Str × α)) (k : Str) (v : α)
    (h : (dictKeys m).Nodup) : (dictKeys (dictInsert m k v)).Nodup := by
  rw [dictKeys_dictInsert]
  by_cases hm : k ∈ dictKeys m
  · rwa [if_pos hm]
  · rw [if_neg hm]
    simp [List.nodup_append, h, hm]

theorem nodup_dictKeys_buildDict (key : α → Str) (l : List α) :
    (dictKeys (buildDict key l)).Nodup := by
  unfold buildDict
  suffices h : ∀ m : List (Str × α), (dictKeys m).Nodup →
      (dictKeys (l.foldl (fun m f => dictInsert m (key f) f) m)).Nodup by
    exact h [] (by simp [dictKeys])
  induction l with
  | nil => intro m hm; simpa using hm
  | cons x xs ih =>
    intro m hm
    exact ih _ (nodup_dictKeys_dictInsert _ _ _ hm)

theorem mem_dictKeys_buildDict (key : α → Str) (l : List α) (k : Str) :
    k ∈ dictKeys (buildDict key l) ↔ ∃ x ∈ l, key x = k := by
  unfold buildDict
  suffices h : ∀ m : List (Str × α),
      k ∈ dictKeys (l.foldl (fun m f => dictInsert m (key f) f) m) ↔
        k ∈ dictKeys m ∨ ∃ x ∈ l, key x = k by
    rw [h []]
    simp only [dictKeys, List.map_nil, List.not_mem_nil, false_or]
  induction l with
  | nil => intro m; simp
  | cons x xs ih =>
    intro m
    simp only [List.foldl_cons]
    rw [ih (dictInsert m (key x) x), mem_dictKeys_dictInsert]
    constructor
    · rintro ((h | rfl) | h)
      · exact Or.inl h
      · exact Or.inr ⟨x, List.mem_cons_self x xs, rfl⟩
      · obtain ⟨y, hy, hyk⟩ := h
        exact Or.inr ⟨y, List.mem_cons_of_mem x hy, hyk⟩
    · rintro (h | ⟨y, hy, hyk⟩)
      · exact Or.inl (Or.inl h)
      · rcases List.mem_cons.mp hy with rfl | hy'
        · exact Or.inl (Or.inr hyk.symm)
        · exact Or.inr ⟨y, hy', hyk⟩

theorem dictLookup_eq_none_iff (m : List (Str × α)) (k : Str) :
    dictLookup m k = none ↔ k ∉ dictKeys m := by
  induction m with
  | nil => simp [dictLookup, dictKeys]
  | cons p rest ih =>
    by_cases h : p.1 = k
    · rw [dictLookup, if_pos h]
      constructor
      · intro hnone; cases hnone
      · intro hk
        exact (hk (List.mem_map.mpr ⟨p, List.mem_cons_self p rest, h⟩)).elim
    · rw [dictLookup, if_neg h, ih]
      simp only [dictKeys, List.map_cons, List.mem_cons]
      constructor
      · intro hk hor
        rcases hor with hpk | hmem
        · exact h hpk.symm
        · exact hk hmem
      · intro hk hmem
        exact hk (Or.inr hmem)

theorem dictLookup_isSome_iff (m : List (Str × α)) (k : Str) :
    (dictLookup m k).isSome = true ↔ k ∈ dictKeys m := by
  constructor
  · intro h
    by_contra hk
    rw [← dictLookup_eq_none_iff] at hk
    rw [hk] at h
    cases h
  · intro hk
    cases hv : dictLookup m k with
    | none => exact absurd ((dictLookup_eq_none_iff m k).mp hv) (not_not_intro hk)
    | some v => rfl

theorem dictLookup_mem (m : List (Str × α)) (k : Str) (v : α)
    (h : dictLookup m k = some v) : (k, v) ∈ m := by
  induction m with
  | nil => simp [dictLookup] at h
  | cons p rest ih =>
    rw [dictLookup] at h
    by_cases hp : p.1 = k
    · rw [if_pos hp] at h
      have hpv : p = (k, v) := by
        obtain ⟨a, b⟩ := p
        cases h
        rw [← hp]
      rw [← hpv]
      exact List.mem_cons_self _ _
    · rw [if_neg hp] at h
      exact List.mem_cons_of_mem _ (ih h)

theorem dictLookup_eq_some_of_mem (m : List (Str × α)) (k : Str) (v : α)
    (hnd : (dictKeys m).Nodup) (h : (k, v) ∈ m) : dictLookup m k = some v := by
  induction m with
  | nil => simp at h
  | cons p rest ih =>
    rw [dictLookup]
    rcases List.mem_cons.mp h with rfl | hmem
    · simp
    · by_cases hp : p.1 = k
      · exfalso
        have hk : k ∈ dictKeys rest := List.mem_map.mpr ⟨(k, v), hmem, rfl⟩
        have hnd2 : (p.1 :: dictKeys rest).Nodup := hnd
        exact (List.nodup_cons.mp hnd2).1 (hp ▸ hk)
      · rw [if_neg hp]
        have hnd2 : (p.1 :: dictKeys rest).Nodup := hnd
        exact ih (List.nodup_cons.mp hnd2).2 hmem

theorem dictLookup_perm (m m' : List (Str × α)) (hperm : m.Perm m')
    (hnd : (dictKeys m).Nodup) (k : Str) : dictLookup m k = dictLookup m' k := by
  have hnd' : (dictKeys m').Nodup := ((hperm.map Prod.fst).nodup_iff).mp hnd
  cases hv : dictLookup m k with
  | none =>
    symm
    rw [dictLookup_eq_none_iff] at hv ⊢
    intro hk
    exact hv ((hperm.map Prod.fst).mem_iff.mpr hk)
  | some v =>
    symm
    exact dictLookup_eq_some_of_mem m' k v hnd'
      (hperm.mem_iff.mp (dictLookup_mem m k v hv))

/-! ### Stable sort lemmas -/

theorem insertByTime_perm (x : Str × EOFeature) (l : List (Str × EOFeature)) :
    (insertByTime x l).Perm (x :: l) := by
  induction l with
  | nil => simp [insertByTime]
  | cons y ys ih =>
    rw [insertByTime]
    by_cases h : y.2.event_time ≤ x.2.event_time
    · rw [if_pos h]
      exact (ih.cons y).trans (List.Perm.swap x y ys)
    · rw [if_neg h]

theorem foldl_insertByTime_perm (l : List (Str × EOFeature)) :
    ∀ acc : List (Str × EOFeature),
      (l.foldl (fun a x => insertByTime x a) acc).Perm (acc ++ l) := by
  induction l with
  | nil => intro acc; simp
  | cons x xs ih =>
    intro acc
    simp only [List.foldl_cons]
    refine (ih (insertByTime x acc)).trans ?_
    refine ((insertByTime_perm x acc).append_right xs).trans ?_
    exact List.perm_middle.symm

theorem sortByTime_perm (l : List (Str × EOFeature)) : (sortByTime l).Perm l := by
  simpa using foldl_insertByTime_perm l []

theorem pairwise_insertByTime (x : Str × EOFeature) (l : List (Str × EOFeature))
    (h : l.Pairwise (fun a b => a.2.event_time ≤ b.2.event_time)) :
    (insertByTime x l).Pairwise (fun a b => a.2.event_time ≤ b.2.event_time) := by
  induction l with
  | nil => simp [insertByTime]
  | cons y ys ih =>
    rw [List.pairwise_cons] at h
    obtain ⟨hy, hys⟩ := h
    rw [insertByTime]
    by_cases hle : y.2.event_time ≤ x.2.event_time
    · rw [if_pos hle]
      rw [List.pairwise_cons]
      refine ⟨?_, ih hys⟩
      intro z hz
      rcases List.mem_cons.mp ((insertByTime_perm x ys).mem_iff.mp hz) with rfl | hz'
      · exact hle
      · exact hy z hz'
    · rw [if_neg hle]
      have hlt : x.2.event_time < y.2.event_time := lt_of_not_le hle
      rw [List.pairwise_cons]
      constructor
      · intro z hz
        rcases List.mem_cons.mp hz with rfl | hz'
        · exact le_of_lt hlt
        · exact le_trans (le_of_lt hlt) (hy z hz')
      · exact List.pairwise_cons.mpr ⟨hy, hys⟩

theorem sortByTime_sorted (l : List (Str × EOFeature)) :
    (sortByTime l).Pairwise (fun a b => a.2.event_time ≤ b.2.event_time) := by
  unfold sortByTime
  suffices h : ∀ acc : List (Str × EOFeature),
      acc.Pairwise (fun a b => a.2.event_time ≤ b.2.event_time) →
      (l.foldl (fun a x => insertByTime x a) acc).Pairwise
        (fun a b => a.2.event_time ≤ b.2.event_time) by
    exact h [] (by simp)
  induction l with
  | nil => intro acc hacc; simpa using hacc
  | cons x xs ih =>
    intro acc hacc
    exact ih _ (pairwise_insertByTime x acc hacc)

theorem filter_insertByTime (t : ℚ) (x : Str × EOFeature)
    (acc : List (Str × EOFeature))
    (hacc : acc.Pairwise (fun a b => a.2.event_time ≤ b.2.event_time)) :
    (insertByTime x acc).filter (fun p => decide (p.2.event_time = t)) =
      if x.2.event_time = t then
        acc.filter (fun p => decide (p.2.event_time = t)) ++ [x]
      else acc.filter (fun p => decide (p.2.event_time = t)) := by
  induction acc with
  | nil =>
    by_cases hx : x.2.event_time = t
    · simp [insertByTime, hx]
    · simp [insertByTime, hx]
  | cons y ys ih =>
    rw [List.pairwise_cons] at hacc
    obtain ⟨hy, hys⟩ := hacc
    rw [insertByTime]
    by_cases hle : y.2.event_time ≤ x.2.event_time
    · rw [if_pos hle]
      by_cases hx : x.2.event_time = t
      · rw [if_pos hx]
        by_cases hyt : y.2.event_time = t
        · simp [List.filter_cons, hyt, ih hys, hx]
        · simp [List.filter_cons, hyt, ih hys, hx]
      · rw [if_neg hx]
        by_cases hyt : y.2.event_time = t
        · simp [List.filter_cons, hyt, ih hys, hx]
        · simp [List.filter_cons, hyt, ih hys, hx]
    · rw [if_neg hle]
      have hlt : x.2.event_time < y.2.event_time := lt_of_not_le hle
      by_cases hx : x.2.event_time = t
      · have hfe : (y :: ys).filter (fun p => decide (p.2.event_time = t)) = [] := by
          rw [List.filter_eq_nil_iff]
          intro z hz
          rcases List.mem_cons.mp hz with rfl | hz'
          · simp only [decide_eq_true_eq]
            rw [← hx]
            exact ne_of_gt hlt
          · simp only [decide_eq_true_eq]
            rw [← hx]
            exact ne_of_gt (lt_of_lt_of_le hlt (hy z hz'))
        rw [if_pos hx, List.filter_cons, hfe, if_pos (decide_eq_true hx)]
        rfl
      · rw [if_neg hx, List.filter_cons,
          if_neg (fun h => hx (of_decide_eq_true h))]

theorem sortByTime_filter (t : ℚ) (l : List (Str × EOFeature)) :
    (sortByTime l).filter (fun p => decide (p.2.event_time = t)) =
      l.filter (fun p => decide (p.2.event_time = t)) := by
  unfold sortByTime
  suffices h : ∀ acc : List (Str × EOFeature),
      acc.Pairwise (fun a b => a.2.event_time ≤ b.2.event_time) →
      (l.foldl (fun a x => insertByTime x a) acc).filter
          (fun p => decide (p.2.event_time = t)) =
        acc.filter (fun p => decide (p.2.event_time = t)) ++
          l.filter (fun p => decide (p.2.event_time = t)) by
    simpa using h [] (by simp)
  induction l with
  | nil => intro acc _; simp
  | cons x xs ih =>
    intro acc hacc
    simp only [List.foldl_cons]
    rw [ih _ (pairwise_insertByTime x acc hacc)]
    rw [filter_insertByTime t x acc hacc]
    rw [List.filter_cons]
    by_cases hx : x.2.event_time = t
    · rw [if_pos hx]
      simp [hx, List.append_assoc]
    · rw [if_neg hx]
      simp [hx]

theorem nodup_keys_sortByTime (l : List (Str × EOFeature))
    (h : (dictKeys l).Nodup) : (dictKeys (sortByTime l)).Nodup :=
  ((sortByTime_perm l).map Prod.fst).nodup_iff.mpr h

/-! ### Lemmas about the cyclic shift -/

theorem range_map_getD (l : List α) (d : α) :
    (List.range l.length).map (fun i => l.getD i d) = l := by
  apply List.ext_getElem
  · simp
  · intro i h1 h2
    simp only [List.getElem_map, List.getElem_range]
    rw [List.getD_eq_getElem]

theorem emod_toNat_lt (a : ℤ) (n : ℕ) (hn : 0 < n) : (a % (n : ℤ)).toNat < n := by
  have hne : (n : ℤ) ≠ 0 := by exact_mod_cast hn.ne'
  have h1 : 0 ≤ a % (n : ℤ) := Int.emod_nonneg a hne
  have h2 : a % (n : ℤ) < (n : ℤ) := Int.emod_lt_of_pos a (by exact_mod_cast hn)
  omega

theorem shiftedEO_length (items : List (Str × EOFeature)) (s : ℤ) :
    (shiftedEO items s).length = items.length := by
  simp [shiftedEO]

theorem dictKeys_shiftedEO (items : List (Str × EOFeature)) (s : ℤ) :
    dictKeys (shiftedEO items s) = dictKeys items := by
  unfold shiftedEO dictKeys
  rw [List.map_map]
  have h : (List.range items.length).map (fun i => (items.getD i dfltPair).1)
      = items.map Prod.fst := by
    conv_rhs => rw [← range_map_getD items dfltPair]
    rw [List.map_map]
    rfl
  rw [← h]
  rfl

theorem shiftedEO_getD (items : List (Str × EOFeature)) (s : ℤ) (i : ℕ)
    (hi : i < items.length) :
    (shiftedEO items s).getD i dfltPair =
      ((items.getD i dfltPair).1,
       (items.getD ((((i : ℤ) + s) % (items.length : ℤ)).toNat) dfltPair).2) := by
  unfold shiftedEO
  rw [List.getD_eq_getElem _ _ (by simpa using hi)]
  simp

theorem dictLookup_shiftedEO (items : List (Str × EOFeature)) (s : ℤ) (i : ℕ)
    (hi : i < items.length) (hnd : (dictKeys items).Nodup) :
    dictLookup (shiftedEO items s) ((items.getD i dfltPair).1) =
      some ((items.getD ((((i : ℤ) + s) % (items.length : ℤ)).toNat) dfltPair).2) := by
  apply dictLookup_eq_some_of_mem
  · rw [dictKeys_shiftedEO]; exact hnd
  · have hlen : i < (shiftedEO items s).length := by
      rw [shiftedEO_length]; exact hi
    have hmem : (shiftedEO items s).getD i dfltPair ∈ shiftedEO items s := by
      rw [List.getD_eq_getElem _ _ hlen]
      exact List.getElem_mem hlen
    rw [shiftedEO_getD items s i hi] at hmem
    exact hmem

theorem shiftedEO_zero (items : List (Str × EOFeature)) :
    shiftedEO items 0 = items := by
  unfold shiftedEO
  conv_rhs => rw [← range_map_getD items dfltPair]
  refine List.map_congr_left ?_
  intro i hi
  rw [List.mem_range] at hi
  have hidx : ((((i : ℤ) + 0) % (items.length : ℤ)).toNat) = i := by
    rw [add_zero]
    rw [Int.emod_eq_of_lt (by exact_mod_cast Nat.zero_le i) (by exact_mod_cast hi)]
    exact Int.toNat_natCast i
  rw [hidx]

theorem shiftedEO_full (items : List (Str × EOFeature)) :
    shiftedEO items (items.length : ℤ) = items := by
  unfold shiftedEO
  conv_rhs => rw [← range_map_getD items dfltPair]
  refine List.map_congr_left ?_
  intro i hi
  rw [List.mem_range] at hi
  have hidx : ((((i : ℤ) + items.length) % (items.length : ℤ)).toNat) = i := by
    have h1 : ((i : ℤ) + items.length * 1) % (items.length : ℤ)
        = (i : ℤ) % (items.length : ℤ) :=
      Int.add_mul_emod_self_left (i : ℤ) (items.length : ℤ) 1
    rw [mul_one] at h1
    rw [h1, Int.emod_eq_of_lt (by exact_mod_cast Nat.zero_le i) (by exact_mod_cast hi)]
    exact Int.toNat_natCast i
  rw [hidx]

theorem shiftedEO_add_length (items : List (Str × EOFeature)) (s : ℤ) :
    shiftedEO items (s + (items.length : ℤ)) = shiftedEO items s := by
  unfold shiftedEO
  refine List.map_congr_left ?_
  intro i _
  have hidx : ((i : ℤ) + (s + items.length)) % (items.length : ℤ)
      = ((i : ℤ) + s) % (items.length : ℤ) := by
    rw [← add_assoc]
    have h1 : (((i : ℤ) + s) + items.length * 1) % (items.length : ℤ)
        = ((i : ℤ) + s) % (items.length : ℤ) :=
      Int.add_mul_emod_self_left ((i : ℤ) + s) (items.length : ℤ) 1
    rwa [mul_one] at h1
  rw [hidx]

theorem foldl_dictInsert_fresh (key : α → Str) (l : List α) :
    ∀ m : List (Str × α), (l.map key).Nodup → (∀ x ∈ l, key x ∉ dictKeys m) →
      l.foldl (fun m f => dictInsert m (key f) f) m
        = m ++ l.map (fun x => (key x, x)) := by
  induction l with
  | nil => intro m _ _; simp
  | cons x xs ih =>
    intro m hnd hdis
    simp only [List.foldl_cons]
    have hx : key x ∉ dictKeys m := hdis x (List.mem_cons_self x xs)
    have hins : dictInsert m (key x) x = m ++ [(key x, x)] := by
      unfold dictInsert
      have hx' : key x ∉ m.map Prod.fst := hx
      rw [if_neg hx']
    rw [hins]
    have hnd' : (xs.map key).Nodup := (List.nodup_cons.mp (by simpa using hnd)).2
    have hhead : key x ∉ xs.map key := (List.nodup_cons.mp (by simpa using hnd)).1
    rw [ih (m ++ [(key x, x)]) hnd' ?_]
    · simp
    · intro y hy
      have h1 : key y ∉ dictKeys m := hdis y (List.mem_cons_of_mem x hy)
      have h2 : key y ≠ key x := by
        intro he
        exact hhead (he ▸ List.mem_map.mpr ⟨y, hy, rfl⟩)
      simp only [dictKeys, List.map_append]
      rw [List.mem_append]
      rintro (hc | hc)
      · exact h1 hc
      · simp at hc
        exact h2 hc

theorem buildDict_of_nodup (key : α → Str) (l : List α)
    (h : (l.map key).Nodup) :
    buildDict key l = l.map (fun x => (key x, x)) := by
  unfold buildDict
  rw [foldl_dictInsert_fresh key l [] h (by simp [dictKeys])]
  rfl

/-! ### Claim theorems for the shifting step -/

/-- C1 (corrected): the shifting step first stable-sorts the EO dict items
by `event_time` ascending (ties keep original order: the filter at every
fixed time value is unchanged), and the resulting key-to-record mapping
associates the key found at sorted-index `i` with the record found at
sorted-index `(i + s) mod n` — not the other way around, as the claim
states it. -/
theorem apply_shift_sorted_rotation (eo : List EOFeature) (s : ℤ) :
    ((sortByTime (eoDict eo)).Pairwise
        (fun a b => a.2.event_time ≤ b.2.event_time)) ∧
    ((sortByTime (eoDict eo)).Perm (eoDict eo)) ∧
    (∀ t : ℚ, (sortByTime (eoDict eo)).filter
        (fun p => decide (p.2.event_time = t))
      = (eoDict eo).filter (fun p => decide (p.2.event_time = t))) ∧
    (∀ i : ℕ, i < (sortByTime (eoDict eo)).length →
      dictLookup (apply_shift eo s)
          (((sortByTime (eoDict eo)).getD i dfltPair).1)
        = some (((sortByTime (eoDict eo)).getD
            ((((i : ℤ) + s) % ((sortByTime (eoDict eo)).length : ℤ)).toNat)
            dfltPair).2)) := by
  refine ⟨sortByTime_sorted _, sortByTime_perm _,
    fun t => sortByTime_filter t _, ?_⟩
  intro i hi
  have hknd : (dictKeys (eoDict eo)).Nodup := nodup_dictKeys_buildDict _ _
  have hsnd : (dictKeys (sortByTime (eoDict eo))).Nodup :=
    nodup_keys_sortByTime _ hknd
  unfold apply_shift
  by_cases hs : s = 0
  · subst hs
    rw [if_pos rfl]
    have hidx : ((((i : ℤ) + 0) % ((sortByTime (eoDict eo)).length : ℤ)).toNat)
        = i := by
      rw [add_zero,
        Int.emod_eq_of_lt (by exact_mod_cast Nat.zero_le i) (by exact_mod_cast hi)]
      exact Int.toNat_natCast i
    rw [hidx]
    have hmem : (sortByTime (eoDict eo)).getD i dfltPair ∈ sortByTime (eoDict eo) := by
      rw [List.getD_eq_getElem _ _ hi]
      exact List.getElem_mem hi
    have hmem' : (sortByTime (eoDict eo)).getD i dfltPair ∈ eoDict eo :=
      (sortByTime_perm (eoDict eo)).mem_iff.mp hmem
    apply dictLookup_eq_some_of_mem _ _ _ hknd
    rw [Prod.mk.eta]
    exact hmem'
  · rw [if_neg hs]
    exact dictLookup_shiftedEO (sortByTime (eoDict eo)) s i hi hsnd

/-- C1 counterexample: on the three-record sequence `cEOs` (sorted keys
`a`, `b`, `c`) with shift `1`, the claim as stated predicts that the key at
sorted-index `(0 + 1) mod 3` (namely `b`) is associated with the record at
sorted-index `0`, but the code associates `b` with the record at
sorted-index `2`. -/
theorem apply_shift_claim_direction_counterexample :
    ¬ (dictLookup (apply_shift cEOs 1)
        (((sortByTime (eoDict cEOs)).getD
            ((((0 : ℕ) : ℤ) + 1) % ((sortByTime (eoDict cEOs)).length : ℤ)).toNat
            dfltPair).1)
      = some (((sortByTime (eoDict cEOs)).getD 0 dfltPair).2)) := by
  decide

/-- C1 witness: the corrected rotation evaluated on `cEOs` at shift `1`,
sorted index `0`. -/
theorem apply_shift_sorted_rotation_witness :
    ((0 : ℕ) < (sortByTime (eoDict cEOs)).length) ∧
    dictLookup (apply_shift cEOs 1)
        (((sortByTime (eoDict cEOs)).getD 0 dfltPair).1)
      = some (((sortByTime (eoDict cEOs)).getD
          ((((0 : ℕ) : ℤ) + 1) % ((sortByTime (eoDict cEOs)).length : ℤ)).toNat
          dfltPair).2) :=
  ⟨by decide, (apply_shift_sorted_rotation cEOs 1).2.2.2 0 (by decide)⟩

/-- C6 (corrected): cyclic closure `apply_shift(seq, s) = apply_shift(seq,
s + n)` holds as an equality of key-to-record mappings provided the
extracted keys of `seq` are pairwise distinct (so that `n = len(seq)`
coincides with the number of distinct keys the rotation actually uses). -/
theorem apply_shift_period (eo : List EOFeature)
    (hnd : (eo.map (fun f => extract_base_filename f.photo_id)).Nodup) :
    ∀ (s : ℤ) (k : Str),
      dictLookup (apply_shift eo s) k
        = dictLookup (apply_shift eo (s + (eo.length : ℤ))) k := by
  intro s k
  have hD : eoDict eo = eo.map (fun g => (extract_base_filename g.photo_id, g)) :=
    buildDict_of_nodup _ _ hnd
  have hlen : (sortByTime (eoDict eo)).length = eo.length := by
    rw [(sortByTime_perm (eoDict eo)).length_eq, hD, List.length_map]
  have hknd : (dictKeys (eoDict eo)).Nodup := nodup_dictKeys_buildDict _ _
  have hsnd : (dictKeys (sortByTime (eoDict eo))).Nodup :=
    nodup_keys_sortByTime _ hknd
  rcases Nat.eq_zero_or_pos eo.length with h0 | hpos
  · have heo : eo = [] := List.length_eq_zero.mp h0
    subst heo
    rw [show ((([] : List EOFeature).length : ℤ)) = 0 from rfl, add_zero]
  · have hposZ : (0 : ℤ) < (eo.length : ℤ) := by exact_mod_cast hpos
    by_cases hs : s = 0
    · subst hs
      rw [zero_add]
      unfold apply_shift
      rw [if_pos rfl, if_neg (by omega : ¬ ((eo.length : ℤ) = 0))]
      have h1 : shiftedEO (sortByTime (eoDict eo)) ((eo.length : ℤ))
          = sortByTime (eoDict eo) := by
        rw [show ((eo.length : ℤ)) = (((sortByTime (eoDict eo)).length : ℤ)) by
          rw [hlen]]
        exact shiftedEO_full _
      rw [h1]
      exact (dictLookup_perm _ _ (sortByTime_perm _) hsnd k).symm
    · by_cases hsn : s + (eo.length : ℤ) = 0
      · unfold apply_shift
        rw [if_neg hs, if_pos hsn]
        have h2 := shiftedEO_add_length (sortByTime (eoDict eo)) s
        rw [hlen, hsn] at h2
        rw [← h2, shiftedEO_zero]
        exact dictLookup_perm _ _ (sortByTime_perm _) hsnd k
      · unfold apply_shift
        rw [if_neg hs, if_neg hsn]
        have h2 := shiftedEO_add_length (sortByTime (eoDict eo)) s
        rw [hlen] at h2
        rw [h2]

/-- C6 counterexample: on `dEOs` (three records, two distinct keys because
`a` repeats), shifting by `0` and by `len(seq) = 3` give different
mappings: key `a` maps to the record with `x = 30` at shift `0` but to the
record with `x = 20` at shift `3`. -/
theorem apply_shift_period_counterexample :
    ¬ (dictLookup (apply_shift dEOs 0) ("a".toList)
        = dictLookup (apply_shift dEOs (0 + (dEOs.length : ℤ))) ("a".toList)) := by
  decide

/-- C6 witness: cyclic closure evaluated on the duplicate-free sequence
`cEOs` at shift `5`, key `a`. -/
theorem apply_shift_period_witness :
    ((cEOs.map (fun f => extract_base_filename f.photo_id)).Nodup) ∧
    dictLookup (apply_shift cEOs 5) ("a".toList)
      = dictLookup (apply_shift cEOs (5 + (cEOs.length : ℤ))) ("a".toList) :=
  ⟨by decide, apply_shift_period cEOs (by decide) 5 ("a".toList)⟩

/-! ### Scoring and aggregation lemmas -/

theorem filterMap_option_map_const {α γ : Type} (o : α → Option γ)
    (g : α → Str) (l : List α) :
    l.filterMap (fun p => (o p).map (fun _ => g p)) =
      (l.filter (fun p => (o p).isSome)).map g := by
  induction l with
  | nil => rfl
  | cons p rest ih =>
    cases ho : o p with
    | none => simp [List.filterMap_cons, List.filter_cons, ho, ih]
    | some v => simp [List.filterMap_cons, List.filter_cons, ho, ih]

theorem score_map_image_id (imgd : List (Str × ImageFeature))
    (eod : List (Str × EOFeature)) :
    (score imgd eod).map MatchResult.image_id =
      (dictKeys imgd).filter (fun k => (dictLookup eod k).isSome) := by
  unfold score
  rw [List.map_filterMap]
  have h1 : ∀ p : Str × ImageFeature,
      ((dictLookup eod p.1).map (fun eof => mkMatch p.1 p.2 eof)).map
          (fun r => MatchResult.image_id r)
        = (dictLookup eod p.1).map (fun _ => p.1) := by
    intro p
    cases dictLookup eod p.1 with
    | none => rfl
    | some eof => simp [mkMatch]
  calc imgd.filterMap (fun p =>
        ((dictLookup eod p.1).map (fun eof => mkMatch p.1 p.2 eof)).map
          (fun r => MatchResult.image_id r))
      = imgd.filterMap (fun p => (dictLookup eod p.1).map (fun _ => p.1)) := by
        apply List.filterMap_congr
        intro p _
        exact h1 p
    _ = (imgd.filter (fun p => (dictLookup eod p.1).isSome)).map Prod.fst :=
        filterMap_option_map_const (fun p => dictLookup eod p.1) Prod.fst imgd
    _ = (dictKeys imgd).filter (fun k => (dictLookup eod k).isSome) := by
        unfold dictKeys
        rw [List.filter_map]
        rfl

theorem foldl_max_spec (a : ℝ) (l : List ℝ) :
    l.foldl max a ∈ a :: l ∧ ∀ x ∈ a :: l, x ≤ l.foldl max a := by
  induction l generalizing a with
  | nil => simp
  | cons b bs ih =>
    obtain ⟨hmem, hle⟩ := ih (max a b)
    constructor
    · simp only [List.foldl_cons]
      rcases List.mem_cons.mp hmem with h | h
      · rcases max_choice a b with hab | hab
        · rw [h, hab]
          exact List.mem_cons_self _ _
        · rw [h, hab]
          exact List.mem_cons_of_mem _ (List.mem_cons_self _ _)
      · exact List.mem_cons_of_mem _ (List.mem_cons_of_mem _ h)
    · intro x hx
      simp only [List.foldl_cons]
      rcases List.mem_cons.mp hx with h | hx'
      · rw [h]
        exact le_trans (le_max_left a b) (hle _ (List.mem_cons_self _ _))
      · rcases List.mem_cons.mp hx' with h | hx''
        · rw [h]
          exact le_trans (le_max_right a b) (hle _ (List.mem_cons_self _ _))
        · exact hle _ (List.mem_cons_of_mem _ hx'')

theorem countP_eq_zero_of_not_mem (l : List Str) (k : Str) (hk : k ∉ l) :
    l.countP (fun x => decide (x = k)) = 0 := by
  induction l with
  | nil => rfl
  | cons a rest ih =>
    have ha : ¬ (a = k) := fun h => hk (h ▸ List.mem_cons_self a rest)
    rw [List.countP_cons_of_neg _ _ (by simpa using ha)]
    exact ih (fun h => hk (List.mem_cons_of_mem a h))

theorem countP_eq_one_of_nodup_mem (l : List Str) (hnd : l.Nodup) (k : Str)
    (hk : k ∈ l) : l.countP (fun x => decide (x = k)) = 1 := by
  induction l with
  | nil => simp at hk
  | cons a rest ih =>
    obtain ⟨hna, hndr⟩ := List.nodup_cons.mp hnd
    rcases List.mem_cons.mp hk with h | h
    · rw [List.countP_cons_of_pos _ _ (by simpa using h.symm)]
      rw [countP_eq_zero_of_not_mem rest k (h ▸ hna)]
    · have ha : ¬ (a = k) := by
        intro he
        exact hna (he ▸ h)
      rw [List.countP_cons_of_neg _ _ (by simpa using ha)]
      exact ih hndr h

/-! ### Claim theorems for scoring, aggregation and degenerate stats -/

/-- C3 (confirmed): for any two key-to-record mappings (the image mapping
having the pairwise-distinct keys every dict guarantees), the scoring step
emits exactly one `MatchResult` per key in the intersection (count `1` for
intersecting keys, `0` for all others), and each emitted result carries the
coordinate differences, the two Euclidean distances and both timestamps.
The embedding is a pure function, mirroring that the loop only reads the
two dictionaries. -/
theorem score_spec (imgd : List (Str × ImageFeature))
    (eod : List (Str × EOFeature)) (hnd : (dictKeys imgd).Nodup) :
    ((score imgd eod).map MatchResult.image_id =
        (dictKeys imgd).filter (fun k => (dictLookup eod k).isSome)) ∧
    (∀ k : Str, ((score imgd eod).map MatchResult.image_id).countP
          (fun x => decide (x = k)) =
        if k ∈ dictKeys imgd ∧ k ∈ dictKeys eod then 1 else 0) ∧
    (∀ r ∈ score imgd eod, ∃ imf eof,
      dictLookup imgd r.image_id = some imf ∧
      dictLookup eod r.image_id = some eof ∧
      r.dx = imf.x - eof.x ∧ r.dy = imf.y - eof.y ∧
      r.dz = imf.altitude - eof.ellipsoid_height ∧
      r.distance_2d = Real.sqrt ((r.dx : ℝ) ^ 2 + (r.dy : ℝ) ^ 2) ∧
      r.distance_3d = Real.sqrt ((r.dx : ℝ) ^ 2 + (r.dy : ℝ) ^ 2 + (r.dz : ℝ) ^ 2) ∧
      r.image_time = imf.timestamp ∧ r.eo_time = eof.event_time) := by
  refine ⟨score_map_image_id imgd eod, ?_, ?_⟩
  · intro k
    rw [score_map_image_id imgd eod]
    have hndf : ((dictKeys imgd).filter
        (fun k => (dictLookup eod k).isSome)).Nodup := hnd.filter _
    by_cases hk : k ∈ (dictKeys imgd).filter (fun k => (dictLookup eod k).isSome)
    · have hk' := List.mem_filter.mp hk
      rw [if_pos ⟨hk'.1, (dictLookup_isSome_iff eod k).mp hk'.2⟩]
      exact countP_eq_one_of_nodup_mem _ hndf k hk
    · rw [if_neg ?_, countP_eq_zero_of_not_mem _ k hk]
      intro hc
      exact hk (List.mem_filter.mpr
        ⟨hc.1, (dictLookup_isSome_iff eod k).mpr hc.2⟩)
  · intro r hr
    obtain ⟨p, hp, hpr⟩ := List.mem_filterMap.mp hr
    obtain ⟨eof, heof, hmk⟩ := Option.map_eq_some'.mp hpr
    subst hmk
    have hid : (mkMatch p.1 p.2 eof).image_id = p.1 := by simp [mkMatch]
    refine ⟨p.2, eof, ?_, ?_, ?_, ?_, ?_, ?_, ?_, ?_, ?_⟩
    · rw [hid]
      apply dictLookup_eq_some_of_mem _ _ _ hnd
      rw [Prod.mk.eta]
      exact hp
    · rw [hid]
      exact heof
    · simp [mkMatch]
    · simp [mkMatch]
    · simp [mkMatch]
    · simp only [mkMatch]
      congr 1
      push_cast
      ring
    · simp only [mkMatch]
      congr 1
      push_cast
      ring
    · simp [mkMatch]
    · simp [mkMatch]

/-- C3 witness: the scoring contract evaluated on the one-entry mappings
built from the witness features. -/
theorem score_spec_witness :
    ((dictKeys [("b".toList, wImg)]).Nodup) ∧
    ((score [("b".toList, wImg)] [("b".toList, wEOB)]).map MatchResult.image_id =
      (dictKeys [("b".toList, wImg)]).filter
        (fun k => (dictLookup [("b".toList, wEOB)] k).isSome)) :=
  ⟨by decide, (score_spec [("b".toList, wImg)] [("b".toList, wEOB)] (by decide)).1⟩

/-- C4 (confirmed): on a non-empty result list the aggregation step returns
the arithmetic means of the 3D and 2D distances, the maximum 3D distance
and the number of results. -/
theorem aggregate_nonempty_spec (d : MatchResult) (rest : List MatchResult) :
    ((aggregate (d :: rest)).avg_3d =
        ((((d :: rest).map MatchResult.distance_3d).sum /
          ((d :: rest).length : ℝ) : ℝ))) ∧
    ((aggregate (d :: rest)).avg_2d =
        ((((d :: rest).map MatchResult.distance_2d).sum /
          ((d :: rest).length : ℝ) : ℝ))) ∧
    (∃ m : ℝ, (aggregate (d :: rest)).max_3d = (m : WithTop ℝ) ∧
      m ∈ (d :: rest).map MatchResult.distance_3d ∧
      ∀ x ∈ (d :: rest).map MatchResult.distance_3d, x ≤ m) ∧
    ((aggregate (d :: rest)).match_count = (d :: rest).length) := by
  refine ⟨rfl, rfl, ?_, rfl⟩
  obtain ⟨hmem, hle⟩ := foldl_max_spec d.distance_3d (rest.map MatchResult.distance_3d)
  refine ⟨(rest.map MatchResult.distance_3d).foldl max d.distance_3d, rfl, ?_, ?_⟩
  · simpa using hmem
  · intro x hx
    apply hle
    simpa using hx

/-- C4 witness: the aggregation contract evaluated on a concrete singleton
result list. -/
theorem aggregate_nonempty_spec_witness :
    (aggregate [mkMatch ("b".toList) wImg wEOB]).match_count =
      ([mkMatch ("b".toList) wImg wEOB] : List MatchResult).length :=
  (aggregate_nonempty_spec (mkMatch ("b".toList) wImg wEOB) []).2.2.2

/-- C5 (confirmed): whenever no extracted image key coincides with any
extracted EO key (in particular when there are no EO records at all), the
statistics report zero matches and `float('inf')` (here `⊤`) for all three
distance figures, at every shift; the embedding is total, mirroring that
the code hits no numeric error (the early return happens before any
division, and the shift loop body never runs when the EO dict is empty). -/
theorem get_alignment_stats_disjoint (img : List ImageFeature)
    (eo : List EOFeature)
    (hdisj : ∀ f ∈ img, ∀ g ∈ eo,
      extract_base_filename f.filename ≠ extract_base_filename g.photo_id) :
    ∀ s : ℤ, get_alignment_stats img eo s =
      { avg_3d := ⊤, avg_2d := ⊤, max_3d := ⊤, match_count := 0 } := by
  intro s
  have hkeys : ∀ k ∈ dictKeys (imageDict img), k ∉ dictKeys (apply_shift eo s) := by
    intro k hk hk'
    obtain ⟨f, hf, hfk⟩ := (mem_dictKeys_buildDict _ img k).mp hk
    have hkeo : k ∈ dictKeys (eoDict eo) := by
      unfold apply_shift at hk'
      by_cases hs : s = 0
      · rwa [if_pos hs] at hk'
      · rw [if_neg hs, dictKeys_shiftedEO] at hk'
        exact ((sortByTime_perm (eoDict eo)).map Prod.fst).mem_iff.mp hk'
    obtain ⟨g, hg, hgk⟩ := (mem_dictKeys_buildDict _ eo k).mp hkeo
    exact hdisj f hf g hg (hfk.trans hgk.symm)
  have hempty : calculate_distances img eo s = [] := by
    unfold calculate_distances score
    rw [List.filterMap_eq_nil_iff]
    intro p hp
    have hnone : dictLookup (apply_shift eo s) p.1 = none := by
      rw [dictLookup_eq_none_iff]
      exact hkeys p.1 (List.mem_map.mpr ⟨p, hp, rfl⟩)
    rw [hnone]
    rfl
  unfold get_alignment_stats
  rw [hempty]
  rfl

/-- C5 witness: disjoint one-record layers at shift `7`. -/
theorem get_alignment_stats_disjoint_witness :
    (∀ f ∈ [wImg], ∀ g ∈ [wEOA],
      extract_base_filename f.filename ≠ extract_base_filename g.photo_id) ∧
    get_alignment_stats [wImg] [wEOA] 7 =
      { avg_3d := ⊤, avg_2d := ⊤, max_3d := ⊤, match_count := 0 } :=
  ⟨by decide, get_alignment_stats_disjoint [wImg] [wEOA] (by decide) 7⟩

/-- C10 (confirmed): for fixed layer contents the pipeline is a pure
function of the inputs and the shift — two invocations are definitionally
equal — and the order of the emitted results is exactly the insertion order
of the image key mapping restricted to the keys that match, which also
fixes the statistics. -/
theorem calculate_distances_deterministic_order (img : List ImageFeature)
    (eo : List EOFeature) (s : ℤ) :
    ((calculate_distances img eo s).map MatchResult.image_id =
      (dictKeys (imageDict img)).filter
        (fun k => (dictLookup (apply_shift eo s) k).isSome)) ∧
    (get_alignment_stats img eo s = aggregate (calculate_distances img eo s)) := by
  exact ⟨score_map_image_id (imageDict img) (apply_shift eo s), rfl⟩

/-! ### Record-loading lemmas and claims -/

theorem foldl_append_init {β γ : Type} (g : β → List γ) (l : List β) :
    ∀ acc : List γ,
      l.foldl (fun a x => a ++ g x) acc
        = acc ++ l.foldl (fun a x => a ++ g x) [] := by
  induction l with
  | nil => intro acc; simp
  | cons x xs ih =>
    intro acc
    rw [List.foldl_cons, List.foldl_cons, ih (acc ++ g x), ih ([] ++ g x)]
    simp [List.append_assoc]

theorem plot_eo_files_eq (files : List (List (List Str))) :
    plot_eo_files files =
      files.foldl (fun a f => a ++ ((read_eo_file f).getD [])) [] := by
  unfold plot_eo_files
  congr 1
  funext a f
  cases read_eo_file f <;> simp

theorem plot_eo_files_append (a b : List (List (List Str))) :
    plot_eo_files (a ++ b) = plot_eo_files a ++ plot_eo_files b := by
  rw [plot_eo_files_eq, plot_eo_files_eq, plot_eo_files_eq, List.foldl_append]
  rw [foldl_append_init]

/-- C7 (corrected): the batch as a whole is never aborted, but the
granularity of the skipping differs between the two loaders.  For EO files,
one unreadable file (for instance one containing a single malformed row) is
skipped whole — together with its successfully parsed rows — while the
records of every other file in the batch are still accumulated.  For image
metadata extraction, a failing image skips only that record. -/
theorem batch_accumulation_spec :
    (∀ (pre post : List (List (List Str))) (bad : List (List Str)),
      read_eo_file bad = none →
      plot_eo_files (pre ++ bad :: post) = plot_eo_files pre ++ plot_eo_files post) ∧
    (∀ (pre post : List (Option OpenedImage)) (bad : Option OpenedImage),
      processOne bad = none →
      process_images (pre ++ bad :: post) =
        process_images pre ++ process_images post) := by
  constructor
  · intro pre post bad hbad
    rw [plot_eo_files_append]
    congr 1
    rw [plot_eo_files_eq, List.foldl_cons, hbad, plot_eo_files_eq]
    rfl
  · intro pre post bad hbad
    unfold process_images
    rw [List.filterMap_append, List.filterMap_cons, hbad]

/-- C7 counterexample: a batch consisting of one EO file whose second row
is malformed (a single field, so `row[1]` raises) yields no records at all,
even though its first row parses fine — the claim's "only that record is
skipped and the parsed remainder is returned" fails for EO files. -/
theorem eo_record_skip_counterexample :
    plot_eo_files [[goodRow, badRow]] = [] ∧
    parseRow goodRow = some ⟨"a".toList, 1, 2, 3, "t".toList⟩ := by
  exact ⟨by decide, by decide⟩

/-- C7 witness: the per-file accumulation evaluated on a concrete batch
with a failing file in the middle. -/
theorem batch_accumulation_spec_witness :
    (read_eo_file [badRow] = none) ∧
    plot_eo_files ([[goodRow]] ++ [badRow] :: [[goodRow]]) =
      plot_eo_files [[goodRow]] ++ plot_eo_files [[goodRow]] :=
  ⟨by decide, batch_accumulation_spec.1 [[goodRow]] [[goodRow]] [badRow] (by decide)⟩

/-- C8 (corrected): a header row is detected (and then skipped) if and only
if SOME field of the first row, lower-cased, is one of the tokens
`filename`, `name`, `image` — the code checks every field of the first row,
not only the first one; when no field matches, the first row is parsed as a
data record. -/
theorem read_eo_file_header_spec (first : List Str) (rest : List (List Str)) :
    (hasHeader (first :: rest) = true ↔
      ∃ f ∈ first, strToLower f ∈ headerTokens) ∧
    (hasHeader (first :: rest) = true →
      read_eo_file (first :: rest) = rest.mapM parseRow) ∧
    (hasHeader (first :: rest) = false →
      read_eo_file (first :: rest) = (first :: rest).mapM parseRow) := by
  refine ⟨?_, ?_, ?_⟩
  · simp [hasHeader, List.any_eq_true]
  · intro h
    unfold read_eo_file
    rw [h]
    rfl
  · intro h
    unfold read_eo_file
    rw [h]
    rfl

/-- C8 counterexample: `tokenRows` has first field `5` (not a header
token), yet the token `image` in its last field makes the code detect and
skip a header, so the lone row is NOT parsed as a data record (the file
reads back empty). -/
theorem header_first_field_counterexample :
    hasHeader tokenRows = true ∧
    (strToLower ("5".toList) ∉ headerTokens) ∧
    read_eo_file tokenRows = some [] := by
  exact ⟨by decide, by decide, by decide⟩

/-- C8 witness: the header contract evaluated on a one-row file with no
header tokens. -/
theorem read_eo_file_header_spec_witness :
    (hasHeader [goodRow] = false) ∧
    read_eo_file [goodRow] = ([goodRow] : List (List Str)).mapM parseRow :=
  ⟨by decide, (read_eo_file_header_spec goodRow []).2.2 (by decide)⟩

theorem replaceAllAux_id (pat : Str) :
    ∀ s : Str, containsSub pat s = false → replaceAllAux pat 0 s = s := by
  intro s
  induction s with
  | nil => intro _; rfl
  | cons c rest ih =>
    intro h
    rw [containsSub, Bool.or_eq_false_iff] at h
    rw [replaceAllAux]
    rw [h.1]
    simp only [Bool.false_and, Bool.false_eq_true, if_false]
    rw [ih h.2]

/-- C9 (confirmed): the key extractor is the total function
`strip ∘ remove-occurrences-of-"_1.tif"`: on any identifier that does not
contain `_1.tif` it returns the identifier unchanged apart from trimming,
and it maps `DJI_0001_1.tif` and the EO photo-id `DJI_0001` to the same key
`DJI_0001`. -/
theorem extract_base_filename_spec :
    (∀ s : Str, containsSub ("_1.tif".toList) s = false →
      extract_base_filename s = pyStrip s) ∧
    extract_base_filename ("DJI_0001_1.tif".toList) = "DJI_0001".toList ∧
    extract_base_filename ("DJI_0001".toList) = "DJI_0001".toList := by
  refine ⟨?_, by decide, by decide⟩
  intro s h
  unfold extract_base_filename replaceAll
  rw [replaceAllAux_id _ s h]

/-- C9 witness: the no-occurrence branch evaluated on `abc`. -/
theorem extract_base_filename_spec_witness :
    (containsSub ("_1.tif".toList) ("abc".toList) = false) ∧
    extract_base_filename ("abc".toList) = pyStrip ("abc".toList) :=
  ⟨by decide, extract_base_filename_spec.1 ("abc".toList) (by decide)⟩

/-! ### Full-search lemmas and claim -/

theorem mem_shiftRange (lo hi s : ℤ) : s ∈ shiftRange lo hi ↔ lo ≤ s ∧ s ≤ hi := by
  unfold shiftRange
  constructor
  · intro h
    obtain ⟨i, hmem, rfl⟩ := List.mem_map.mp h
    rw [List.mem_range] at hmem
    omega
  · intro hab
    refine List.mem_map.mpr ⟨(s - lo).toNat, ?_, ?_⟩
    · rw [List.mem_range]
      omega
    · omega

theorem betterThan_irrefl (c : ℤ × AlignmentStats) : ¬ betterThan c c := by
  unfold betterThan
  rintro (h | ⟨-, h | ⟨-, h⟩⟩) <;> exact lt_irrefl _ h

open Classical in
theorem foldl_betterThan_eq (l : List (ℤ × AlignmentStats)) :
    ∀ a x : ℤ × AlignmentStats,
    (x = a ∨ x ∈ l) →
    (∀ y, (y = a ∨ y ∈ l) → y ≠ x → betterThan x y) →
    (∀ y, (y = a ∨ y ∈ l) → ¬ betterThan y x) →
    l.foldl (fun b c' => if betterThan c' b then c' else b) a = x := by
  induction l with
  | nil =>
    intro a x hx _ _
    rcases hx with h | h
    · simp only [List.foldl_nil]
      exact h.symm
    · simp at h
  | cons c rest ih =>
    intro a x hx hbeats hnb
    simp only [List.foldl_cons]
    have hdom : ∀ y : ℤ × AlignmentStats,
        (y = (if betterThan c a then c else a) ∨ y ∈ rest) →
        (y = a ∨ y ∈ c :: rest) := by
      intro y hy
      rcases hy with hy | hy
      · by_cases hca : betterThan c a
        · rw [if_pos hca] at hy
          exact Or.inr (hy ▸ List.mem_cons_self c rest)
        · rw [if_neg hca] at hy
          exact Or.inl hy
      · exact Or.inr (List.mem_cons_of_mem c hy)
    apply ih
    · by_cases hxc : x = c
      · by_cases hca : betterThan c a
        · rw [if_pos hca]
          exact Or.inl hxc
        · by_cases hax : a = x
          · rw [if_neg hca]
            exact Or.inl hax.symm
          · exfalso
            exact hca (hxc ▸ hbeats a (Or.inl rfl) hax)
      · rcases hx with hxa | hxl
        · by_cases hca : betterThan c a
          · exfalso
            exact hnb c (Or.inr (List.mem_cons_self c rest)) (hxa.symm ▸ hca)
          · rw [if_neg hca]
            exact Or.inl hxa
        · rcases List.mem_cons.mp hxl with h | h
          · exact absurd h hxc
          · exact Or.inr h
    · intro y hy hyx
      exact hbeats y (hdom y hy) hyx
    · intro y hy
      exact hnb y (hdom y hy)

theorem match_count_pos_of_avg_eq_zero (img : List ImageFeature)
    (eo : List EOFeature) (s : ℤ)
    (h : (get_alignment_stats img eo s).avg_3d = 0) :
    1 ≤ (get_alignment_stats img eo s).match_count := by
  unfold get_alignment_stats at h ⊢
  cases hd : calculate_distances img eo s with
  | nil =>
    rw [hd] at h
    exact absurd h (by simp [aggregate])
  | cons d rest =>
    show 1 ≤ (d :: rest).length
    rw [List.length_cons]
    omega

/-- C2 (confirmed against the spec-modelled search; reason starts
`spec-modelled:` in the results): if exactly one in-range shift `s0` yields
`avg_3d = 0` while every other in-range shift yields `avg_3d > 0`, then
`best_shift` returns `s0` together with its statistics — not the
NoAlignmentFound failure — and that shift has at least one match (an empty
match list would have reported infinite, hence nonzero, `avg_3d`). -/
theorem best_shift_unique_zero (img : List ImageFeature) (eo : List EOFeature)
    (lo hi s0 : ℤ) (h1 : lo ≤ s0) (h2 : s0 ≤ hi)
    (h3 : (get_alignment_stats img eo s0).avg_3d = 0)
    (h4 : ∀ t : ℤ, lo ≤ t → t ≤ hi → t ≠ s0 →
      0 < (get_alignment_stats img eo t).avg_3d) :
    best_shift img eo lo hi = some (s0, get_alignment_stats img eo s0) ∧
      1 ≤ (get_alignment_stats img eo s0).match_count := by
  refine ⟨?_, match_count_pos_of_avg_eq_zero img eo s0 h3⟩
  unfold best_shift
  have hs0mem : s0 ∈ shiftRange lo hi := (mem_shiftRange lo hi s0).mpr ⟨h1, h2⟩
  have hmc := match_count_pos_of_avg_eq_zero img eo s0 h3
  have hall : ((shiftRange lo hi).map
      (fun s => (s, get_alignment_stats img eo s))).all
        (fun c => c.2.match_count == 0) = false := by
    by_contra hcon
    rw [Bool.not_eq_false, List.all_eq_true] at hcon
    have := hcon (s0, get_alignment_stats img eo s0)
      (List.mem_map.mpr ⟨s0, hs0mem, rfl⟩)
    simp at this
    omega
  simp only [hall]
  simp only [Bool.false_eq_true, if_false]
  obtain ⟨c, rest, hcr⟩ : ∃ c rest,
      (shiftRange lo hi).map (fun s => (s, get_alignment_stats img eo s))
        = c :: rest := by
    cases hc : (shiftRange lo hi).map
        (fun s => (s, get_alignment_stats img eo s)) with
    | nil =>
      exfalso
      have hm : (s0, get_alignment_stats img eo s0) ∈
          (shiftRange lo hi).map (fun s => (s, get_alignment_stats img eo s)) :=
        List.mem_map.mpr ⟨s0, hs0mem, rfl⟩
      rw [hc] at hm
      simp at hm
    | cons c rest => exact ⟨c, rest, rfl⟩
  rw [hcr]
  simp only [pickBest]
  congr 1
  apply foldl_betterThan_eq
  · have hxmem : (s0, get_alignment_stats img eo s0) ∈ c :: rest := by
      rw [← hcr]
      exact List.mem_map.mpr ⟨s0, hs0mem, rfl⟩
    rcases List.mem_cons.mp hxmem with h | h
    · exact Or.inl h
    · exact Or.inr h
  · intro y hy hyx
    have hymem : y ∈ c :: rest := by
      rcases hy with rfl | hy
      · exact List.mem_cons_self _ _
      · exact List.mem_cons_of_mem _ hy
    rw [← hcr] at hymem
    obtain ⟨t, htmem, hty⟩ := List.mem_map.mp hymem
    have htrange := (mem_shiftRange lo hi t).mp htmem
    have hts0 : t ≠ s0 := by
      intro he
      apply hyx
      rw [← hty, he]
    have hpos := h4 t htrange.1 htrange.2 hts0
    unfold betterThan
    left
    rw [← hty]
    show (get_alignment_stats img eo s0).avg_3d
        < (get_alignment_stats img eo t).avg_3d
    rw [h3]
    exact hpos
  · intro y hy
    have hymem : y ∈ c :: rest := by
      rcases hy with rfl | hy
      · exact List.mem_cons_self _ _
      · exact List.mem_cons_of_mem _ hy
    rw [← hcr] at hymem
    obtain ⟨t, htmem, hty⟩ := List.mem_map.mp hymem
    by_cases hts0 : t = s0
    · rw [← hty, hts0]
      exact betterThan_irrefl _
    · have htrange := (mem_shiftRange lo hi t).mp htmem
      have hpos := h4 t htrange.1 htrange.2 hts0
      rw [← hty]
      unfold betterThan
      rintro (h | ⟨he, -⟩)
      · rw [h3] at h
        have h' : (get_alignment_stats img eo t).avg_3d < 0 := h
        exact (lt_asymm hpos) h'
      · rw [h3] at he
        have he' : (get_alignment_stats img eo t).avg_3d = 0 := he
        exact (ne_of_gt hpos) he'

theorem aggregate_singleton_avg (m : MatchResult) :
    (aggregate [m]).avg_3d = ((m.distance_3d : ℝ) : WithTop ℝ) := by
  simp [aggregate]

/-- C2 witness: on one image record keyed `b` and two EO records keyed
`a`, `b`, shift `1` rotates the matching EO association onto the image
position (residual `0`) while shift `0` leaves a residual of `1`; the
search over `[0, 1]` returns shift `1`. -/
theorem best_shift_unique_zero_witness :
    ((0 : ℤ) ≤ 1 ∧ (1 : ℤ) ≤ 1 ∧
      (get_alignment_stats [wImg] [wEOA, wEOB] 1).avg_3d = 0 ∧
      (∀ t : ℤ, 0 ≤ t → t ≤ 1 → t ≠ 1 →
        0 < (get_alignment_stats [wImg] [wEOA, wEOB] t).avg_3d)) ∧
    (best_shift [wImg] [wEOA, wEOB] 0 1
        = some (1, get_alignment_stats [wImg] [wEOA, wEOB] 1) ∧
      1 ≤ (get_alignment_stats [wImg] [wEOA, wEOB] 1).match_count) := by
  have hd0 : (mkMatch ("b".toList) wImg wEOA).distance_3d = 0 := by
    simp only [mkMatch, wImg, wEOA]
    rw [show (((0 - 0) * (0 - 0) + (0 - 0) * (0 - 0) + (0 - 0) * (0 - 0) : ℚ) : ℝ)
        = 0 by norm_num]
    exact Real.sqrt_zero
  have hd1 : (mkMatch ("b".toList) wImg wEOB).distance_3d = 1 := by
    simp only [mkMatch, wImg, wEOB]
    rw [show (((0 - 1) * (0 - 1) + (0 - 0) * (0 - 0) + (0 - 0) * (0 - 0) : ℚ) : ℝ)
        = 1 by norm_num]
    exact Real.sqrt_one
  have hA : (get_alignment_stats [wImg] [wEOA, wEOB] 1).avg_3d = 0 := by
    show (aggregate (calculate_distances [wImg] [wEOA, wEOB] 1)).avg_3d = 0
    rw [show calculate_distances [wImg] [wEOA, wEOB] 1
        = [mkMatch ("b".toList) wImg wEOA] from rfl]
    rw [aggregate_singleton_avg, hd0]
    simp
  have hB : 0 < (get_alignment_stats [wImg] [wEOA, wEOB] 0).avg_3d := by
    show 0 < (aggregate (calculate_distances [wImg] [wEOA, wEOB] 0)).avg_3d
    rw [show calculate_distances [wImg] [wEOA, wEOB] 0
        = [mkMatch ("b".toList) wImg wEOB] from rfl]
    rw [aggregate_singleton_avg, hd1]
    exact_mod_cast zero_lt_one
  have h4 : ∀ t : ℤ, 0 ≤ t → t ≤ 1 → t ≠ 1 →
      0 < (get_alignment_stats [wImg] [wEOA, wEOB] t).avg_3d := by
    intro t ht0 ht1 htn
    have ht : t = 0 := by omega
    subst ht
    exact hB
  exact ⟨⟨by norm_num, le_refl 1, hA, h4⟩,
    best_shift_unique_zero [wImg] [wEOA, wEOB] 0 1 1 (by norm_num) (le_refl 1) hA h4⟩

end EOVal
